import Mathlib

/-!
# Verification of the Pokémon Name Jar draw/persistence core

Shallow embedding of `src/streamlit_app.py`: two SQLite-backed append-only
stores (suggestions, assignments), the draw-pool computation, and the
submit / pick handlers.  Randomness is modelled by passing the random index
as an explicit argument; the wall clock is modelled by passing the timestamp
string as an explicit argument.
-/

namespace PkmonNames

/-- The ASCII whitespace characters removed by Python's `str.strip()`
(space, tab, newline, carriage return, vertical tab, form feed).
Python additionally strips some non-ASCII Unicode whitespace; the
inputs handled by this app are covered by the ASCII set. -/
def pyIsSpace (c : Char) : Bool :=
  c = ' ' || c = '\t' || c = '\n' || c = '\r' || c = Char.ofNat 11 || c = Char.ofNat 12

/-- `str.strip()` on the character list: drop whitespace from the front,
then from the back. -/
def pyStripList (l : List Char) : List Char :=
  ((l.dropWhile pyIsSpace).reverse.dropWhile pyIsSpace).reverse

/-- Python `str.strip()`. -/
def pyStrip (s : String) : String :=
  ⟨pyStripList s.data⟩

/-- Python `str.lower()`, character-wise (ASCII case folding; Python also
folds non-ASCII letters, which this app's data does not exercise). -/
def pyLower (s : String) : String :=
  ⟨s.data.map Char.toLower⟩

/-- Lexicographic code-point comparison of character lists: the order Python
uses to compare strings in `sorted`. -/
def charListLe : List Char → List Char → Bool
  | [], _ => true
  | _ :: _, [] => false
  | a :: as, b :: bs => if a = b then charListLe as bs else decide (a < b)

/-- Python's `≤` on strings (lexicographic by code point). -/
def strLe (a b : String) : Prop :=
  charListLe a.data b.data = true

instance : DecidableRel strLe := fun _ _ => instDecidableEqBool _ _

/-- A row of the `suggestions` table: `id, name, user, ts`. -/
structure Suggestion where
  id : Nat
  name : String
  user : String
  ts : String
deriving DecidableEq, Repr

/-- A row of the `assignments` table: `id, pokemon, chosen_name, ts`. -/
structure Assignment where
  id : Nat
  pokemon : String
  chosen_name : String
  ts : String
deriving DecidableEq, Repr

/-- The `suggestions` table together with its AUTOINCREMENT counter
(`sqlite_sequence`): the next id to hand out is never reset, even by
`DELETE FROM suggestions`. -/
structure SuggestionStore where
  rows : List Suggestion
  nextId : Nat
deriving DecidableEq, Repr

/-- The `assignments` table together with its AUTOINCREMENT counter. -/
structure AssignmentStore where
  rows : List Assignment
  nextId : Nat
deriving DecidableEq, Repr

/-- The whole database `names.db`. -/
structure DB where
  suggestions : SuggestionStore
  assignments : AssignmentStore
deriving DecidableEq, Repr

/-- The freshly created database: both tables empty, AUTOINCREMENT starts at 1. -/
def initDB : DB :=
  ⟨⟨[], 1⟩, ⟨[], 1⟩⟩

/-- `add_suggestion`: INSERT INTO suggestions(name, user, ts)
VALUES(name.strip(), (user or "").strip(), utcnow). -/
def add_suggestion (db : DB) (name user ts : String) : DB :=
  { db with
      suggestions :=
        { rows := db.suggestions.rows ++
            [⟨db.suggestions.nextId, pyStrip name, pyStrip user, ts⟩],
          nextId := db.suggestions.nextId + 1 } }

/-- `list_suggestions`: SELECT id, name, user, ts FROM suggestions ORDER BY id DESC. -/
def list_suggestions (db : DB) : List Suggestion :=
  List.insertionSort (fun a b => b.id ≤ a.id) db.suggestions.rows

/-- `clear_suggestions`: DELETE FROM suggestions (AUTOINCREMENT counter kept). -/
def clear_suggestions (db : DB) : DB :=
  { db with suggestions := { rows := [], nextId := db.suggestions.nextId } }

/-- `add_assignment`: INSERT INTO assignments(pokemon, chosen_name, ts)
VALUES(pokemon.strip(), chosen_name.strip(), utcnow). -/
def add_assignment (db : DB) (pokemon chosen_name ts : String) : DB :=
  { db with
      assignments :=
        { rows := db.assignments.rows ++
            [⟨db.assignments.nextId, pyStrip pokemon, pyStrip chosen_name, ts⟩],
          nextId := db.assignments.nextId + 1 } }

/-- `list_assignments`: SELECT ... FROM assignments ORDER BY id DESC. -/
def list_assignments (db : DB) : List Assignment :=
  List.insertionSort (fun a b => b.id ≤ a.id) db.assignments.rows

/-- `clear_assignments`: DELETE FROM assignments (AUTOINCREMENT counter kept). -/
def clear_assignments (db : DB) : DB :=
  { db with assignments := { rows := [], nextId := db.assignments.nextId } }

/-- The `assigned` set of the assign tab: lowercased `chosen_name`s of all
assignment rows when `unique_only` is on, empty otherwise.  The Python code
builds a `set`; only membership is ever tested, so a list models it. -/
def assignedLowered (db : DB) (unique_only : Bool) : List String :=
  if unique_only then (list_assignments db).map (fun a => pyLower a.chosen_name)
  else []

/-- First-occurrence-preserving deduplication: the key order of a Python
dict comprehension.  `seen` accumulates the keys already emitted. -/
def pyDictKeysAux (seen : List String) : List String → List String
  | [] => []
  | x :: xs =>
      if seen.contains x then pyDictKeysAux seen xs
      else x :: pyDictKeysAux (x :: seen) xs

/-- Keys of `\x7bk: None for k in l\x7d` in Python: `l` with later duplicates dropped. -/
def pyDictKeys (l : List String) : List String :=
  pyDictKeysAux [] l

/-- The draw pool of the assign tab.  With `allow_duplicates_in_pool` the pool
is `[n for n in names if n.lower() not in assigned]`; without it the pool is
`sorted(\x7bn.strip(): None for n in names if n.strip() and n.lower() not in assigned\x7d.keys())`. -/
def draw_pool (db : DB) (unique_only allow_duplicates_in_pool : Bool) : List String :=
  let assigned := assignedLowered db unique_only
  let names := (list_suggestions db).map (·.name)
  if allow_duplicates_in_pool then
    names.filter (fun n => !(assigned.contains (pyLower n)))
  else
    List.insertionSort strLe
      (pyDictKeys ((names.filter
        (fun n => pyStrip n != "" && !(assigned.contains (pyLower n)))).map pyStrip))

/-- Outcome surfaced by the submit handler of the collect tab. -/
inductive SubmitOutcome where
  | validationError : String → SubmitOutcome
  | ok : SubmitOutcome
deriving DecidableEq, Repr

/-- The submit handler (`if submitted:` block): validation, then
`add_suggestion(conn, name=name.strip(), user=user)`. -/
def submit (db : DB) (name user ts : String) : SubmitOutcome × DB :=
  if name = "" ∨ pyStrip name = "" then
    (.validationError "Please enter a valid name.", db)
  else if (pyStrip name).length > 50 then
    (.validationError "Name is too long (max 50 characters).", db)
  else
    (.ok, add_suggestion db (pyStrip name) user ts)

/-- Outcome surfaced by the draw handler of the assign tab. -/
inductive PickOutcome where
  | subjectError : PickOutcome
  | emptyPoolError : PickOutcome
  | success : String → PickOutcome
deriving DecidableEq, Repr

/-- The draw handler (`if pick:` block): subject validation, empty-pool
check, then `chosen = random.choice(draw_pool)` (`idx` is the random index)
and `add_assignment(conn, pokemon=pokemon_name.strip(), chosen_name=chosen)`. -/
def pick (db : DB) (pokemon_name : String) (unique_only allow_duplicates_in_pool : Bool)
    (idx : Nat) (ts : String) : PickOutcome × DB :=
  if pyStrip pokemon_name = "" then
    (.subjectError, db)
  else
    let pool := draw_pool db unique_only allow_duplicates_in_pool
    if pool = [] then
      (.emptyPoolError, db)
    else
      let chosen := pool.getD (idx % pool.length) ""
      (.success chosen, add_assignment db (pyStrip pokemon_name) chosen ts)

/-- One user/operator action against the app. -/
inductive Op where
  | submitOp : String → String → String → Op
  | pickOp : String → Bool → Bool → Nat → String → Op
  | clearSuggestionsOp : Op
  | clearAssignmentsOp : Op
deriving DecidableEq, Repr

/-- Apply one action to the database. -/
def applyOp (db : DB) : Op → DB
  | .submitOp name user ts => (submit db name user ts).2
  | .pickOp p uo ad i ts => (pick db p uo ad i ts).2
  | .clearSuggestionsOp => clear_suggestions db
  | .clearAssignmentsOp => clear_assignments db

/-- Run a trace of actions. -/
def applyOps (db : DB) (ops : List Op) : DB :=
  ops.foldl applyOp db

/-- A suggestion row as only the submit handler can produce it: the name is
whitespace-trimmed and non-empty. -/
def SuggestionRowOk (r : Suggestion) : Prop :=
  pyStrip r.name = r.name ∧ r.name ≠ ""

/-- Invariant of every reachable database: row ids strictly increase in
insertion order and stay below the AUTOINCREMENT counter, and suggestion
names are trimmed and non-empty. -/
def DBInv (db : DB) : Prop :=
  db.suggestions.rows.Pairwise (fun a b => a.id < b.id) ∧
  (∀ r ∈ db.suggestions.rows, r.id < db.suggestions.nextId) ∧
  db.assignments.rows.Pairwise (fun a b => a.id < b.id) ∧
  (∀ r ∈ db.assignments.rows, r.id < db.assignments.nextId) ∧
  (∀ r ∈ db.suggestions.rows, SuggestionRowOk r)

instance (r : Suggestion) : Decidable (SuggestionRowOk r) := by
  unfold SuggestionRowOk
  infer_instance

instance (db : DB) : Decidable (DBInv db) := by
  unfold DBInv SuggestionRowOk
  infer_instance

/-- Modelled from the spec: "If `collapseDuplicates`, reduce the remaining
list to its distinct values, sorted lexicographically" — the distinct trimmed
suggestion names remaining after the `uniqueOnly` exclusion, sorted.  Stated
to be compared with `draw_pool` for the refinement claim. -/
def specCollapsedPool (db : DB) (unique_only : Bool) : List String :=
  List.insertionSort strLe
    (((((list_suggestions db).map (·.name)).filter
      (fun n => !((assignedLowered db unique_only).contains (pyLower n)))).map
        pyStrip).dedup)

/-- The store of testable property 3 of the spec: suggestions
`["Luna", "luna", "Blaze"]`, no assignments. -/
def c3DB : DB :=
  ⟨⟨[⟨1, "Luna", "", "t1"⟩, ⟨2, "luna", "", "t2"⟩, ⟨3, "Blaze", "", "t3"⟩], 4⟩, ⟨[], 1⟩⟩

/-- A small concrete database used to witness hypotheses: two suggestions,
one of which ("Luna") is already assigned. -/
def wDB : DB :=
  ⟨⟨[⟨1, "Luna", "Ash", "t1"⟩, ⟨2, "Blaze", "", "t2"⟩], 3⟩,
   ⟨[⟨1, "Charmander", "Luna", "t3"⟩], 2⟩⟩

/-! ## Order facts about the lexicographic string comparison -/

theorem charListLe_total : ∀ a b : List Char, charListLe a b = true ∨ charListLe b a = true
  | [], _ => Or.inl rfl
  | _ :: _, [] => Or.inr rfl
  | a :: as, b :: bs => by
    by_cases h : a = b
    · subst h
      simpa [charListLe] using charListLe_total as bs
    · rcases lt_or_gt_of_ne h with hlt | hgt
      · left
        simp [charListLe, h, hlt]
      · right
        simp [charListLe, Ne.symm h, hgt]

theorem charListLe_trans :
    ∀ a b c : List Char,
      charListLe a b = true → charListLe b c = true → charListLe a c = true
  | [], _, _, _, _ => rfl
  | _ :: _, [], _, h, _ => by simp [charListLe] at h
  | _ :: _, _ :: _, [], _, h => by simp [charListLe] at h
  | a :: as, b :: bs, c :: cs, h1, h2 => by
    simp only [charListLe] at h1 h2 ⊢
    by_cases hab : a = b <;> by_cases hbc : b = c
    · subst hab; subst hbc
      simp only [if_pos rfl] at h1 h2 ⊢
      exact charListLe_trans as bs cs h1 h2
    · subst hab
      simp only [if_pos rfl, if_neg hbc, decide_eq_true_eq] at h2 ⊢
      simp [if_neg hbc, decide_eq_true_eq, h2]
    · subst hbc
      simp only [if_neg hab, decide_eq_true_eq] at h1
      simp [if_neg hab, decide_eq_true_eq, h1]
    · simp only [if_neg hab, if_neg hbc, decide_eq_true_eq] at h1 h2
      have hac : a < c := lt_trans h1 h2
      simp [if_neg (ne_of_lt hac), decide_eq_true_eq, hac]

theorem charListLe_antisymm :
    ∀ a b : List Char, charListLe a b = true → charListLe b a = true → a = b
  | [], [], _, _ => rfl
  | [], _ :: _, _, h => by simp [charListLe] at h
  | _ :: _, [], h, _ => by simp [charListLe] at h
  | a :: as, b :: bs, h1, h2 => by
    by_cases hab : a = b
    · subst hab
      simp only [charListLe, if_pos rfl] at h1 h2
      rw [charListLe_antisymm as bs h1 h2]
    · simp only [charListLe, if_neg hab, if_neg (Ne.symm hab), decide_eq_true_eq] at h1 h2
      exact absurd h2 (asymm h1)

instance : IsTotal String strLe :=
  ⟨fun a b => charListLe_total a.data b.data⟩

instance : IsTrans String strLe :=
  ⟨fun a b c => charListLe_trans a.data b.data c.data⟩

instance : IsAntisymm String strLe :=
  ⟨fun a b h1 h2 => by
    cases a with
    | mk da =>
      cases b with
      | mk db => exact congrArg String.mk (charListLe_antisymm da db h1 h2)⟩

/-! ## Python `strip` facts -/

theorem dropWhile_self_idem (p : α → Bool) :
    ∀ l : List α, (l.dropWhile p).dropWhile p = l.dropWhile p
  | [] => rfl
  | a :: l => by
    by_cases h : p a = true
    · rw [List.dropWhile_cons, if_pos h]
      exact dropWhile_self_idem p l
    · rw [List.dropWhile_cons, if_neg h, List.dropWhile_cons, if_neg h]

theorem dropWhile_length_le (p : α → Bool) :
    ∀ l : List α, (l.dropWhile p).length ≤ l.length
  | [] => Nat.le_refl _
  | a :: l => by
    rw [List.dropWhile_cons]
    by_cases h : p a = true
    · rw [if_pos h]
      exact Nat.le_succ_of_le (dropWhile_length_le p l)
    · rw [if_neg h]

theorem head_false_of_dropWhile_eq_self (p : α → Bool) (x : α) (xs : List α)
    (h : (x :: xs).dropWhile p = x :: xs) : p x = false := by
  by_cases hx : p x = true
  · rw [List.dropWhile_cons, if_pos hx] at h
    have hlen := congrArg List.length h
    have hle := dropWhile_length_le p xs
    simp only [List.length_cons] at hlen
    omega
  · simpa using hx

theorem dropWhile_eq_self_of_head? (p : α → Bool) (l : List α) (a : α)
    (hh : l.head? = some a) (ha : p a = false) : l.dropWhile p = l := by
  cases l with
  | nil => rfl
  | cons x xs =>
    rw [List.head?_cons] at hh
    injection hh with hx
    subst hx
    rw [List.dropWhile_cons, if_neg (by simp [ha])]

theorem dropWhile_reverse_dropWhile_reverse (p : α → Bool) (m : List α)
    (hm : m.dropWhile p = m) :
    ((m.reverse.dropWhile p).reverse).dropWhile p = (m.reverse.dropWhile p).reverse := by
  set u := m.reverse.dropWhile p with hu
  rcases hru : u.reverse.head? with _ | a
  · rw [List.head?_eq_none_iff] at hru
    rw [hru]
    rfl
  · refine dropWhile_eq_self_of_head? p _ a hru ?_
    have h1 : u.getLast? = some a := by rw [← List.head?_reverse]; exact hru
    have h2 : u ≠ [] := by
      intro h
      rw [h] at h1
      simp at h1
    have h3 : (m.reverse).getLast? = some a := by
      rw [← List.takeWhile_append_dropWhile p m.reverse,
        List.getLast?_append_of_ne_nil _ h2]
      exact h1
    rw [List.getLast?_reverse] at h3
    cases m with
    | nil => simp at h3
    | cons x xs =>
      rw [List.head?_cons] at h3
      injection h3 with hx
      subst hx
      exact head_false_of_dropWhile_eq_self p _ _ hm

theorem pyStripList_idem (l : List Char) : pyStripList (pyStripList l) = pyStripList l := by
  unfold pyStripList
  set m := l.dropWhile pyIsSpace with hmdef
  have hm : m.dropWhile pyIsSpace = m := dropWhile_self_idem pyIsSpace l
  set u := m.reverse.dropWhile pyIsSpace with hudef
  have h1 : (u.reverse).dropWhile pyIsSpace = u.reverse :=
    dropWhile_reverse_dropWhile_reverse pyIsSpace m hm
  rw [h1, List.reverse_reverse]
  have h2 : u.dropWhile pyIsSpace = u := dropWhile_self_idem pyIsSpace m.reverse
  rw [h2]

theorem pyStrip_idem (s : String) : pyStrip (pyStrip s) = pyStrip s := by
  unfold pyStrip
  exact congrArg String.mk (pyStripList_idem s.data)

/-! ## Properties of dict-key deduplication -/

theorem mem_pyDictKeysAux (x : String) :
    ∀ (l seen : List String), x ∈ pyDictKeysAux seen l ↔ x ∈ l ∧ ¬ seen.contains x
  | [], seen => by simp [pyDictKeysAux]
  | y :: ys, seen => by
    by_cases h : seen.contains y = true
    · rw [pyDictKeysAux, if_pos h, mem_pyDictKeysAux x ys seen]
      constructor
      · rintro ⟨hmem, hns⟩
        exact ⟨List.mem_cons_of_mem _ hmem, hns⟩
      · rintro ⟨hmem, hns⟩
        rcases List.mem_cons.mp hmem with rfl | hmem
        · exact absurd h (by simpa using hns)
        · exact ⟨hmem, hns⟩
    · rw [pyDictKeysAux, if_neg h]
      rw [List.mem_cons, mem_pyDictKeysAux x ys (y :: seen)]
      constructor
      · rintro (rfl | ⟨hmem, hns⟩)
        · exact ⟨List.mem_cons_self _ _, by simpa using h⟩
        · refine ⟨List.mem_cons_of_mem _ hmem, ?_⟩
          intro hc
          exact hns (by simp [List.contains_cons] at hc ⊢; tauto)
      · rintro ⟨hmem, hns⟩
        rcases List.mem_cons.mp hmem with rfl | hmem
        · exact Or.inl rfl
        · by_cases hxy : x = y
          · exact Or.inl hxy
          · refine Or.inr ⟨hmem, ?_⟩
            simp [List.contains_cons] at hns ⊢
            tauto

theorem nodup_pyDictKeysAux :
    ∀ (l seen : List String), (pyDictKeysAux seen l).Nodup
  | [], _ => List.nodup_nil
  | y :: ys, seen => by
    by_cases h : seen.contains y = true
    · rw [pyDictKeysAux, if_pos h]
      exact nodup_pyDictKeysAux ys seen
    · rw [pyDictKeysAux, if_neg h]
      refine List.Nodup.cons ?_ (nodup_pyDictKeysAux ys (y :: seen))
      intro hy
      rcases (mem_pyDictKeysAux y ys (y :: seen)).mp hy with ⟨_, hns⟩
      exact hns (by simp [List.contains_cons])

theorem mem_pyDictKeys (x : String) (l : List String) :
    x ∈ pyDictKeys l ↔ x ∈ l := by
  rw [pyDictKeys, mem_pyDictKeysAux]
  simp

theorem nodup_pyDictKeys (l : List String) : (pyDictKeys l).Nodup :=
  nodup_pyDictKeysAux l []

theorem contains_iff (l : List String) (x : String) : l.contains x = true ↔ x ∈ l :=
  List.elem_iff

/-! ## Sorting by descending id on a store with increasing ids -/

theorem orderedInsert_of_all_not (r : α → α → Prop) [DecidableRel r] (a : α) :
    ∀ m : List α, (∀ b ∈ m, ¬ r a b) → List.orderedInsert r a m = m ++ [a]
  | [], _ => rfl
  | c :: m, h => by
    rw [List.orderedInsert, if_neg (h c (List.mem_cons_self c m)),
      orderedInsert_of_all_not r a m (fun b hb => h b (List.mem_cons_of_mem c hb))]
    rfl

theorem insertionSort_desc_of_inc (idOf : α → Nat) :
    ∀ l : List α, l.Pairwise (fun a b => idOf a < idOf b) →
      List.insertionSort (fun a b => idOf b ≤ idOf a) l = l.reverse
  | [], _ => rfl
  | a :: t, h => by
    obtain ⟨hhead, htail⟩ := List.pairwise_cons.mp h
    rw [List.insertionSort, insertionSort_desc_of_inc idOf t htail,
      orderedInsert_of_all_not (fun a b => idOf b ≤ idOf a) a t.reverse
        (fun b hb => not_le.mpr (hhead b (List.mem_reverse.mp hb))),
      List.reverse_cons]

theorem list_suggestions_eq_reverse (db : DB)
    (h : db.suggestions.rows.Pairwise (fun a b => a.id < b.id)) :
    list_suggestions db = db.suggestions.rows.reverse :=
  insertionSort_desc_of_inc (fun r : Suggestion => r.id) _ h

theorem list_assignments_eq_reverse (db : DB)
    (h : db.assignments.rows.Pairwise (fun a b => a.id < b.id)) :
    list_assignments db = db.assignments.rows.reverse :=
  insertionSort_desc_of_inc (fun r : Assignment => r.id) _ h

/-! ## Invariant preservation -/

theorem pairwise_append_one (idOf : α → Nat) (l : List α) (x : α)
    (hp : l.Pairwise (fun a b => idOf a < idOf b)) (hlt : ∀ r ∈ l, idOf r < idOf x) :
    (l ++ [x]).Pairwise (fun a b => idOf a < idOf b) := by
  rw [List.pairwise_append]
  refine ⟨hp, List.pairwise_singleton _ _, fun a ha b hb => ?_⟩
  rcases List.mem_singleton.mp hb with rfl
  exact hlt a ha

theorem DBInv_init : DBInv initDB := by decide

theorem DBInv_add_assignment (db : DB) (h : DBInv db) (p c ts : String) :
    DBInv (add_assignment db p c ts) := by
  obtain ⟨h1, h2, h3, h4, h5⟩ := h
  refine ⟨h1, h2, ?_, ?_, h5⟩
  · exact pairwise_append_one (fun r : Assignment => r.id) _ _ h3 h4
  · intro r hr
    rcases List.mem_append.mp hr with hr | hr
    · exact Nat.lt_succ_of_lt (h4 r hr)
    · rcases List.mem_singleton.mp hr with rfl
      exact Nat.lt_succ_self _

theorem DBInv_add_suggestion (db : DB) (h : DBInv db) (name user ts : String)
    (hne : pyStrip name ≠ "") :
    DBInv (add_suggestion db name user ts) := by
  obtain ⟨h1, h2, h3, h4, h5⟩ := h
  refine ⟨?_, ?_, h3, h4, ?_⟩
  · exact pairwise_append_one (fun r : Suggestion => r.id) _ _ h1 h2
  · intro r hr
    rcases List.mem_append.mp hr with hr | hr
    · exact Nat.lt_succ_of_lt (h2 r hr)
    · rcases List.mem_singleton.mp hr with rfl
      exact Nat.lt_succ_self _
  · intro r hr
    rcases List.mem_append.mp hr with hr | hr
    · exact h5 r hr
    · rcases List.mem_singleton.mp hr with rfl
      exact ⟨pyStrip_idem name, hne⟩

theorem DBInv_clear_suggestions (db : DB) (h : DBInv db) :
    DBInv (clear_suggestions db) := by
  obtain ⟨-, -, h3, h4, -⟩ := h
  refine ⟨?_, ?_, ?_, ?_, ?_⟩
  · simp [clear_suggestions]
  · simp [clear_suggestions]
  · simpa [clear_suggestions] using h3
  · simpa [clear_suggestions] using h4
  · simp [clear_suggestions]

theorem DBInv_clear_assignments (db : DB) (h : DBInv db) :
    DBInv (clear_assignments db) := by
  obtain ⟨h1, h2, -, -, h5⟩ := h
  refine ⟨?_, ?_, ?_, ?_, ?_⟩
  · simpa [clear_assignments] using h1
  · simpa [clear_assignments] using h2
  · simp [clear_assignments]
  · simp [clear_assignments]
  · simpa [clear_assignments] using h5

theorem DBInv_submit (db : DB) (h : DBInv db) (name user ts : String) :
    DBInv (submit db name user ts).2 := by
  unfold submit
  by_cases hc1 : name = "" ∨ pyStrip name = ""
  · rw [if_pos hc1]
    exact h
  · rw [if_neg hc1]
    by_cases hc2 : (pyStrip name).length > 50
    · rw [if_pos hc2]
      exact h
    · rw [if_neg hc2]
      have hne : pyStrip name ≠ "" := fun hx => hc1 (Or.inr hx)
      refine DBInv_add_suggestion db h (pyStrip name) user ts ?_
      rw [pyStrip_idem]
      exact hne

theorem DBInv_pick (db : DB) (h : DBInv db) (p : String) (uo ad : Bool) (i : Nat)
    (ts : String) : DBInv (pick db p uo ad i ts).2 := by
  unfold pick
  by_cases hc1 : pyStrip p = ""
  · rw [if_pos hc1]
    exact h
  · rw [if_neg hc1]
    by_cases hc2 : draw_pool db uo ad = []
    · simp only [hc2, if_pos rfl]
      exact h
    · simp only [if_neg hc2]
      exact DBInv_add_assignment db h _ _ _

theorem DBInv_applyOp (db : DB) (op : Op) (h : DBInv db) : DBInv (applyOp db op) := by
  cases op with
  | submitOp name user ts => exact DBInv_submit db h name user ts
  | pickOp p uo ad i ts => exact DBInv_pick db h p uo ad i ts
  | clearSuggestionsOp => exact DBInv_clear_suggestions db h
  | clearAssignmentsOp => exact DBInv_clear_assignments db h

theorem DBInv_applyOps (db : DB) (h : DBInv db) :
    ∀ ops : List Op, DBInv (applyOps db ops)
  | [] => h
  | op :: ops => by
    have h1 : DBInv (applyOp db op) := DBInv_applyOp db op h
    have h2 := DBInv_applyOps (applyOp db op) h1 ops
    simpa [applyOps, List.foldl_cons] using h2

/-! ## Draw-pool facts -/

theorem draw_pool_true_eq (db : DB) (u : Bool) :
    draw_pool db u true = ((list_suggestions db).map (·.name)).filter
      (fun n => !((assignedLowered db u).contains (pyLower n))) := rfl

theorem draw_pool_false_eq (db : DB) (u : Bool) :
    draw_pool db u false = List.insertionSort strLe (pyDictKeys
      ((((list_suggestions db).map (·.name)).filter
        (fun n => pyStrip n != "" &&
          !((assignedLowered db u).contains (pyLower n)))).map pyStrip)) := rfl

theorem mem_names_iff (db : DB) (x : String) :
    x ∈ (list_suggestions db).map (·.name) ↔ ∃ r ∈ db.suggestions.rows, r.name = x := by
  unfold list_suggestions
  rw [List.mem_map]
  constructor
  · rintro ⟨r, hr, rfl⟩
    exact ⟨r, (List.perm_insertionSort _ _).mem_iff.mp hr, rfl⟩
  · rintro ⟨r, hr, rfl⟩
    exact ⟨r, (List.perm_insertionSort _ _).mem_iff.mpr hr, rfl⟩

theorem assignedLowered_mem (db : DB) (c : String)
    (hc : c ∈ db.assignments.rows.map (fun a => a.chosen_name)) :
    (assignedLowered db true).contains (pyLower c) = true := by
  rw [contains_iff]
  unfold assignedLowered
  rw [if_pos rfl, List.mem_map]
  rw [List.mem_map] at hc
  obtain ⟨a, ha, rfl⟩ := hc
  exact ⟨a, (List.perm_insertionSort _ _).mem_iff.mpr ha, rfl⟩

theorem draw_pool_spec (db : DB) (u d : Bool) (x : String)
    (hTrim : ∀ r ∈ db.suggestions.rows, pyStrip r.name = r.name)
    (hx : x ∈ draw_pool db u d) :
    (∃ r ∈ db.suggestions.rows, r.name = x) ∧ pyStrip x = x ∧
      (assignedLowered db u).contains (pyLower x) = false := by
  cases d with
  | true =>
    rw [draw_pool_true_eq, List.mem_filter] at hx
    obtain ⟨hmem, hcond⟩ := hx
    obtain ⟨r, hr, hrx⟩ := (mem_names_iff db x).mp hmem
    refine ⟨⟨r, hr, hrx⟩, ?_, ?_⟩
    · rw [← hrx]
      exact hTrim r hr
    · simpa using hcond
  | false =>
    rw [draw_pool_false_eq] at hx
    have hx2 := (List.perm_insertionSort _ _).mem_iff.mp hx
    rw [mem_pyDictKeys, List.mem_map] at hx2
    obtain ⟨n, hn, rfl⟩ := hx2
    rw [List.mem_filter] at hn
    obtain ⟨hmem, hcond⟩ := hn
    obtain ⟨r, hr, hrn⟩ := (mem_names_iff db n).mp hmem
    have hstrip : pyStrip n = n := by
      rw [← hrn]
      exact hTrim r hr
    rw [Bool.and_eq_true] at hcond
    refine ⟨⟨r, hr, by rw [hrn, hstrip]⟩, pyStrip_idem n, ?_⟩
    rw [hstrip]
    simpa using hcond.2

/-! ## Unfolding the pick handler -/

theorem pick_subject_invalid_eq (db : DB) (p : String) (u d : Bool) (i : Nat) (ts : String)
    (hs : pyStrip p = "") : pick db p u d i ts = (.subjectError, db) := by
  unfold pick
  rw [if_pos hs]

theorem pick_empty_eq (db : DB) (p : String) (u d : Bool) (i : Nat) (ts : String)
    (hs : pyStrip p ≠ "") (he : draw_pool db u d = []) :
    pick db p u d i ts = (.emptyPoolError, db) := by
  unfold pick
  rw [if_neg hs]
  simp [he]

theorem pick_success_eq (db : DB) (p : String) (u d : Bool) (i : Nat) (ts : String)
    (hs : pyStrip p ≠ "") (he : draw_pool db u d ≠ []) :
    pick db p u d i ts =
      (.success ((draw_pool db u d).getD (i % (draw_pool db u d).length) ""),
        add_assignment db (pyStrip p)
          ((draw_pool db u d).getD (i % (draw_pool db u d).length) "") ts) := by
  unfold pick
  rw [if_neg hs]
  simp only [if_neg he]

theorem getD_mem_of_ne_nil (l : List String) (i : Nat) (h : l ≠ []) :
    l.getD (i % l.length) "" ∈ l := by
  have hlen : i % l.length < l.length :=
    Nat.mod_lt _ (List.length_pos.mpr h)
  rw [List.getD_eq_getElem l "" hlen]
  exact List.getElem_mem hlen

/-! ## Claims -/

/-- C10: a draw request whose subject is empty after whitespace trimming
writes nothing to the assignment store and reports a subject-validation
failure rather than the empty-pool failure, whatever the pool contents:
the subject check is performed first in the handler. -/
theorem subject_check_before_pool_check (db : DB) (u d : Bool) (i : Nat)
    (subject ts : String) (hs : pyStrip subject = "") :
    pick db subject u d i ts = (.subjectError, db) :=
  pick_subject_invalid_eq db subject u d i ts hs

theorem subject_check_before_pool_check_witness :
    pyStrip "   " = "" ∧ draw_pool initDB true false = [] ∧
      pick initDB "   " true false 0 "T" = (.subjectError, initDB) :=
  ⟨by decide, by decide,
    subject_check_before_pool_check initDB true false 0 "   " "T" (by decide)⟩

/-- C3 (counterexample): with suggestions ["Luna", "luna", "Blaze"] and an
empty assignment store, the collapsed uniqueOnly pool contains "luna" as an
option separate from "Luna" — the dict-based dedup is case-sensitive — so the
pool is not the claimed two-element set containing only "Blaze" and "Luna". -/
theorem collapse_case_sensitive_cex :
    "luna" ∈ draw_pool c3DB true false ∧
      ¬("luna" = "Blaze" ∨ "luna" = "Luna") := by
  decide

/-- C3 (amended): with suggestions ["Luna", "luna", "Blaze"] and an empty
assignment store, the collapsed uniqueOnly pool is exactly
["Blaze", "Luna", "luna"]: deduplication of the pool is case-sensitive, so
case variants stay separate options; ordering is lexicographic by code
point. -/
theorem collapse_case_sensitive_pool :
    draw_pool c3DB true false = ["Blaze", "Luna", "luna"] := by
  decide

/-- C8: a submitted name that is empty after trimming or whose trimmed length
exceeds 50 characters fails with a validation error and leaves the database
unchanged; otherwise exactly one suggestion row holding the trimmed input is
appended and the assignment store is untouched. -/
theorem submit_validates_and_appends (db : DB) (name user ts : String) :
    ((pyStrip name = "" ∨ (pyStrip name).length > 50) →
      (∃ msg, (submit db name user ts).1 = .validationError msg) ∧
        (submit db name user ts).2 = db) ∧
    (pyStrip name ≠ "" → (pyStrip name).length ≤ 50 →
      (submit db name user ts).1 = .ok ∧
      (submit db name user ts).2.suggestions.rows =
        db.suggestions.rows ++
          [⟨db.suggestions.nextId, pyStrip name, pyStrip user, ts⟩] ∧
      (submit db name user ts).2.suggestions.nextId = db.suggestions.nextId + 1 ∧
      (submit db name user ts).2.assignments = db.assignments) := by
  constructor
  · rintro (h | h)
    · unfold submit
      rw [if_pos (Or.inr h)]
      exact ⟨⟨_, rfl⟩, rfl⟩
    · by_cases h0 : name = "" ∨ pyStrip name = ""
      · unfold submit
        rw [if_pos h0]
        exact ⟨⟨_, rfl⟩, rfl⟩
      · unfold submit
        rw [if_neg h0, if_pos h]
        exact ⟨⟨_, rfl⟩, rfl⟩
  · intro h1 h2
    have h0 : ¬(name = "" ∨ pyStrip name = "") := by
      rintro (rfl | h)
      · exact h1 (by decide)
      · exact h1 h
    unfold submit
    rw [if_neg h0, if_neg (not_lt.mpr h2)]
    refine ⟨rfl, ?_, rfl, rfl⟩
    unfold add_suggestion
    simp [pyStrip_idem]

theorem submit_validates_and_appends_witness :
    (∃ msg, (submit wDB "   " "u" "T").1 = .validationError msg) ∧
      (submit wDB "   " "u" "T").2 = wDB :=
  (submit_validates_and_appends wDB "   " "u" "T").1 (Or.inl (by decide))

/-- C1: with a valid subject, a draw either appends exactly one assignment
record — carrying the given subject, the selected pool name, and the
timestamp of the call (`datetime.utcnow().isoformat()`, passed as `ts`) —
and returns that name, or, when the eligible pool is empty, fails with the
empty-pool outcome and leaves both stores unchanged; no partial write
exists. -/
theorem draw_atomic (db : DB) (u d : Bool) (i : Nat) (subject ts : String)
    (hTrim : ∀ r ∈ db.suggestions.rows, pyStrip r.name = r.name)
    (hs : pyStrip subject ≠ "") :
    (draw_pool db u d = [] ∧ pick db subject u d i ts = (.emptyPoolError, db)) ∨
    (∃ c, c ∈ draw_pool db u d ∧
      (pick db subject u d i ts).1 = .success c ∧
      (pick db subject u d i ts).2.suggestions = db.suggestions ∧
      (pick db subject u d i ts).2.assignments.rows =
        db.assignments.rows ++ [⟨db.assignments.nextId, pyStrip subject, c, ts⟩] ∧
      (pick db subject u d i ts).2.assignments.nextId = db.assignments.nextId + 1) := by
  by_cases he : draw_pool db u d = []
  · exact Or.inl ⟨he, pick_empty_eq db subject u d i ts hs he⟩
  · right
    have hcm : (draw_pool db u d).getD (i % (draw_pool db u d).length) "" ∈
        draw_pool db u d := getD_mem_of_ne_nil _ i he
    have hcstrip := (draw_pool_spec db u d _ hTrim hcm).2.1
    have heq := pick_success_eq db subject u d i ts hs he
    refine ⟨(draw_pool db u d).getD (i % (draw_pool db u d).length) "",
      hcm, ?_, ?_, ?_, ?_⟩
    · rw [heq]
    · rw [heq]
      rfl
    · rw [heq]
      show db.assignments.rows ++
          [⟨db.assignments.nextId, pyStrip (pyStrip subject),
            pyStrip ((draw_pool db u d).getD (i % (draw_pool db u d).length) ""), ts⟩] = _
      rw [pyStrip_idem, hcstrip]
    · rw [heq]
      rfl

theorem draw_atomic_witness :
    (∀ r ∈ wDB.suggestions.rows, pyStrip r.name = r.name) ∧
    pyStrip "Pikachu" ≠ "" ∧
    ((draw_pool wDB true false = [] ∧
        pick wDB "Pikachu" true false 0 "T" = (.emptyPoolError, wDB)) ∨
      (∃ c, c ∈ draw_pool wDB true false ∧
        (pick wDB "Pikachu" true false 0 "T").1 = .success c ∧
        (pick wDB "Pikachu" true false 0 "T").2.suggestions = wDB.suggestions ∧
        (pick wDB "Pikachu" true false 0 "T").2.assignments.rows =
          wDB.assignments.rows ++ [⟨wDB.assignments.nextId, pyStrip "Pikachu", c, "T"⟩] ∧
        (pick wDB "Pikachu" true false 0 "T").2.assignments.nextId =
          wDB.assignments.nextId + 1)) :=
  ⟨by decide, by decide,
    draw_atomic wDB true false 0 "Pikachu" "T" (by decide) (by decide)⟩

/-- C2: under uniqueOnly, every name recorded in the assignment store is
excluded case-insensitively from the draw pool — for either duplicate
setting — so no subsequent uniqueOnly draw can return it until the
assignment store is cleared (the record stays in the store until then). -/
theorem unique_only_never_repeats (db : DB) (d : Bool) (c : String)
    (hTrim : ∀ r ∈ db.suggestions.rows, pyStrip r.name = r.name)
    (hc : c ∈ db.assignments.rows.map (fun a => a.chosen_name)) :
    ∀ x ∈ draw_pool db true d, pyLower x ≠ pyLower c := by
  intro x hx heq
  have hfalse := (draw_pool_spec db true d x hTrim hx).2.2
  have htrue := assignedLowered_mem db c hc
  rw [← heq] at htrue
  rw [htrue] at hfalse
  cases hfalse

theorem unique_only_never_repeats_witness :
    (∀ r ∈ wDB.suggestions.rows, pyStrip r.name = r.name) ∧
    "Luna" ∈ wDB.assignments.rows.map (fun a => a.chosen_name) ∧
    ∀ x ∈ draw_pool wDB true false, pyLower x ≠ pyLower "Luna" :=
  ⟨by decide, by decide,
    unique_only_never_repeats wDB false "Luna" (by decide) (by decide)⟩

/-- C9: the chosen_name written by a successful draw is character-for-character
the name field of a suggestion row present in the store at draw time; it is
copied verbatim, not re-normalized. -/
theorem chosen_name_verbatim (db : DB) (u d : Bool) (i : Nat) (subject ts : String)
    (hTrim : ∀ r ∈ db.suggestions.rows, pyStrip r.name = r.name)
    (hs : pyStrip subject ≠ "") (he : draw_pool db u d ≠ []) :
    ∃ c, (pick db subject u d i ts).1 = .success c ∧
      (pick db subject u d i ts).2.assignments.rows =
        db.assignments.rows ++ [⟨db.assignments.nextId, pyStrip subject, c, ts⟩] ∧
      ∃ r ∈ db.suggestions.rows, r.name = c := by
  have hcm : (draw_pool db u d).getD (i % (draw_pool db u d).length) "" ∈
      draw_pool db u d := getD_mem_of_ne_nil _ i he
  obtain ⟨hr, hcstrip, -⟩ := draw_pool_spec db u d _ hTrim hcm
  have heq := pick_success_eq db subject u d i ts hs he
  refine ⟨(draw_pool db u d).getD (i % (draw_pool db u d).length) "", ?_, ?_, hr⟩
  · rw [heq]
  · rw [heq]
    show db.assignments.rows ++
        [⟨db.assignments.nextId, pyStrip (pyStrip subject),
          pyStrip ((draw_pool db u d).getD (i % (draw_pool db u d).length) ""), ts⟩] = _
    rw [pyStrip_idem, hcstrip]

/-- Counting favorable indices: the number of positions of a list holding the
value `x` is the multiplicity of `x` in the list. -/
theorem count_get_indices (x : String) :
    ∀ l : List String,
      ((Finset.univ : Finset (Fin l.length)).filter (fun i => l.get i = x)).card =
        l.count x
  | [] => by simp
  | a :: t => by
    rw [Finset.card_filter]
    simp only [List.length_cons]
    rw [Fin.sum_univ_succ]
    have hs : ∀ i : Fin t.length, (a :: t).get i.succ = t.get i := fun i => rfl
    simp only [hs]
    rw [← Finset.card_filter, count_get_indices x t, List.count_cons]
    have h0 : (a :: t).get (0 : Fin (t.length + 1)) = a := rfl
    rw [h0]
    by_cases hax : a = x
    · rw [if_pos hax, if_pos (by simpa using hax)]
      omega
    · rw [if_neg hax, if_neg (by simpa using hax)]
      omega

/-- C5: with uniqueOnly and collapseDuplicates both off, the eligible pool is
the multiset of all stored suggestion names (one entry per row), and the draw
picks a uniform random index over the pool length, so the number of indices
selecting a name equals its multiplicity and its selection probability is
count/length — a name submitted three times is three times likelier than a
name submitted once. -/
theorem multiset_pool_uniform (db : DB) (x : String) :
    draw_pool db false true = (list_suggestions db).map (·.name) ∧
    ((Finset.univ : Finset (Fin (draw_pool db false true).length)).filter
        (fun i => (draw_pool db false true).get i = x)).card =
      (draw_pool db false true).count x ∧
    (((Finset.univ : Finset (Fin (draw_pool db false true).length)).filter
          (fun i => (draw_pool db false true).get i = x)).card : ℚ) /
        ((draw_pool db false true).length : ℚ) =
      ((draw_pool db false true).count x : ℚ) /
        ((draw_pool db false true).length : ℚ) := by
  refine ⟨?_, count_get_indices x _, by rw [count_get_indices x _]⟩
  rw [draw_pool_true_eq]
  have hempty : assignedLowered db false = [] := rfl
  rw [hempty]
  have hall : ∀ n ∈ (list_suggestions db).map (·.name),
      (!(([] : List String).contains (pyLower n))) = true := by
    intro n _
    rfl
  rw [@List.filter_congr String _ (fun _ => true) _ hall]
  exact List.filter_true _

/-- Two lists that are permutations of each other have the same insertion
sort under the (total, transitive, antisymmetric) lexicographic order. -/
theorem sortStr_eq_of_perm (X Y : List String) (h : X.Perm Y) :
    List.insertionSort strLe X = List.insertionSort strLe Y :=
  List.eq_of_perm_of_sorted
    (((List.perm_insertionSort strLe X).trans h).trans
      (List.perm_insertionSort strLe Y).symm)
    (List.sorted_insertionSort strLe X)
    (List.sorted_insertionSort strLe Y)

/-- C4: with collapseDuplicates on, the eligible pool is the list of distinct
trimmed suggestion names remaining after the uniqueOnly exclusion, sorted
lexicographically (the spec-side `specCollapsedPool`); being a function of
the store contents and flags alone, the reported available count is the same
for every call against identical stores and flags. -/
theorem collapsed_pool_matches_spec (db : DB) (u : Bool)
    (hOk : ∀ r ∈ db.suggestions.rows, SuggestionRowOk r) :
    draw_pool db u false = specCollapsedPool db u ∧
    (draw_pool db u false).length = (specCollapsedPool db u).length := by
  have hfil : (((list_suggestions db).map (·.name)).filter
      (fun n => pyStrip n != "" && !((assignedLowered db u).contains (pyLower n)))) =
      (((list_suggestions db).map (·.name)).filter
        (fun n => !((assignedLowered db u).contains (pyLower n)))) := by
    apply List.filter_congr
    intro n hn
    obtain ⟨r, hr, rfl⟩ := (mem_names_iff db n).mp hn
    obtain ⟨hstrip, hne⟩ := hOk r hr
    have hbne : (pyStrip r.name != "") = true := by
      rw [hstrip]
      simpa using hne
    rw [hbne, Bool.true_and]
  have hmain : draw_pool db u false = specCollapsedPool db u := by
    rw [draw_pool_false_eq, hfil]
    unfold specCollapsedPool
    apply sortStr_eq_of_perm
    refine (List.perm_ext_iff_of_nodup (nodup_pyDictKeys _) (List.nodup_dedup _)).mpr ?_
    intro a
    rw [mem_pyDictKeys, List.mem_dedup]
  exact ⟨hmain, by rw [hmain]⟩

theorem collapsed_pool_matches_spec_witness :
    (∀ r ∈ wDB.suggestions.rows, SuggestionRowOk r) ∧
    draw_pool wDB true false = specCollapsedPool wDB true ∧
    (draw_pool wDB true false).length = (specCollapsedPool wDB true).length :=
  ⟨by decide, collapsed_pool_matches_spec wDB true (by decide)⟩

theorem chosen_name_verbatim_witness :
    (∀ r ∈ wDB.suggestions.rows, pyStrip r.name = r.name) ∧
    pyStrip "Eevee" ≠ "" ∧ draw_pool wDB true false ≠ [] ∧
    (∃ c, (pick wDB "Eevee" true false 0 "T").1 = .success c ∧
      (pick wDB "Eevee" true false 0 "T").2.assignments.rows =
        wDB.assignments.rows ++ [⟨wDB.assignments.nextId, pyStrip "Eevee", c, "T"⟩] ∧
      ∃ r ∈ wDB.suggestions.rows, r.name = c) :=
  ⟨by decide, by decide, by decide,
    chosen_name_verbatim wDB true false 0 "Eevee" "T" (by decide) (by decide) (by decide)⟩

/-! ## Store effects of each operation -/

theorem submit_suggestions_extends (db : DB) (n u t : String) :
    ∃ tail, (submit db n u t).2.suggestions.rows = db.suggestions.rows ++ tail := by
  unfold submit
  by_cases h0 : n = "" ∨ pyStrip n = ""
  · rw [if_pos h0]
    exact ⟨[], by simp⟩
  · rw [if_neg h0]
    by_cases h1 : (pyStrip n).length > 50
    · rw [if_pos h1]
      exact ⟨[], by simp⟩
    · rw [if_neg h1]
      exact ⟨[⟨db.suggestions.nextId, pyStrip (pyStrip n), pyStrip u, t⟩], rfl⟩

theorem submit_assignments_eq (db : DB) (n u t : String) :
    (submit db n u t).2.assignments = db.assignments := by
  unfold submit
  by_cases h0 : n = "" ∨ pyStrip n = ""
  · rw [if_pos h0]
  · rw [if_neg h0]
    by_cases h1 : (pyStrip n).length > 50
    · rw [if_pos h1]
    · rw [if_neg h1]
      rfl

theorem pick_suggestions_eq (db : DB) (p : String) (uo ad : Bool) (i : Nat)
    (t : String) : (pick db p uo ad i t).2.suggestions = db.suggestions := by
  by_cases h0 : pyStrip p = ""
  · rw [pick_subject_invalid_eq db p uo ad i t h0]
  · by_cases h1 : draw_pool db uo ad = []
    · rw [pick_empty_eq db p uo ad i t h0 h1]
    · rw [pick_success_eq db p uo ad i t h0 h1]
      rfl

theorem pick_assignments_extends (db : DB) (p : String) (uo ad : Bool) (i : Nat)
    (t : String) :
    ∃ tail, (pick db p uo ad i t).2.assignments.rows = db.assignments.rows ++ tail := by
  by_cases h0 : pyStrip p = ""
  · rw [pick_subject_invalid_eq db p uo ad i t h0]
    exact ⟨[], by simp⟩
  · by_cases h1 : draw_pool db uo ad = []
    · rw [pick_empty_eq db p uo ad i t h0 h1]
      exact ⟨[], by simp⟩
    · rw [pick_success_eq db p uo ad i t h0 h1]
      exact ⟨[⟨db.assignments.nextId, pyStrip (pyStrip p),
        pyStrip ((draw_pool db uo ad).getD (i % (draw_pool db uo ad).length) ""), t⟩], rfl⟩

theorem nextId_mono_applyOp (db : DB) (op : Op) :
    db.suggestions.nextId ≤ (applyOp db op).suggestions.nextId ∧
    db.assignments.nextId ≤ (applyOp db op).assignments.nextId := by
  cases op with
  | submitOp n u t =>
    show db.suggestions.nextId ≤ (submit db n u t).2.suggestions.nextId ∧
      db.assignments.nextId ≤ (submit db n u t).2.assignments.nextId
    unfold submit
    by_cases h0 : n = "" ∨ pyStrip n = ""
    · rw [if_pos h0]
      exact ⟨Nat.le_refl _, Nat.le_refl _⟩
    · rw [if_neg h0]
      by_cases h1 : (pyStrip n).length > 50
      · rw [if_pos h1]
        exact ⟨Nat.le_refl _, Nat.le_refl _⟩
      · rw [if_neg h1]
        exact ⟨Nat.le_succ _, Nat.le_refl _⟩
  | pickOp p uo ad i t =>
    show db.suggestions.nextId ≤ (pick db p uo ad i t).2.suggestions.nextId ∧
      db.assignments.nextId ≤ (pick db p uo ad i t).2.assignments.nextId
    by_cases h0 : pyStrip p = ""
    · rw [pick_subject_invalid_eq db p uo ad i t h0]
      exact ⟨Nat.le_refl _, Nat.le_refl _⟩
    · by_cases h1 : draw_pool db uo ad = []
      · rw [pick_empty_eq db p uo ad i t h0 h1]
        exact ⟨Nat.le_refl _, Nat.le_refl _⟩
      · rw [pick_success_eq db p uo ad i t h0 h1]
        exact ⟨Nat.le_refl _, Nat.le_succ _⟩
  | clearSuggestionsOp => exact ⟨Nat.le_refl _, Nat.le_refl _⟩
  | clearAssignmentsOp => exact ⟨Nat.le_refl _, Nat.le_refl _⟩

theorem nextId_mono_applyOps (db : DB) :
    ∀ ops : List Op,
      db.suggestions.nextId ≤ (applyOps db ops).suggestions.nextId ∧
      db.assignments.nextId ≤ (applyOps db ops).assignments.nextId
  | [] => ⟨Nat.le_refl _, Nat.le_refl _⟩
  | op :: ops => by
    have h1 := nextId_mono_applyOp db op
    have h2 := nextId_mono_applyOps (applyOp db op) ops
    refine ⟨Nat.le_trans h1.1 ?_, Nat.le_trans h1.2 ?_⟩
    · simpa [applyOps] using h2.1
    · simpa [applyOps] using h2.2

theorem applyOps_append (db : DB) (l1 l2 : List Op) :
    applyOps db (l1 ++ l2) = applyOps (applyOps db l1) l2 := by
  unfold applyOps
  rw [List.foldl_append]

theorem applyOps_take_drop (db : DB) (ops : List Op) (k : Nat) :
    applyOps db ops = applyOps (applyOps db (ops.take k)) (ops.drop k) := by
  rw [← applyOps_append, List.take_append_drop]

/-- C6: along any trace of operations from the fresh database, each store
lists all of its rows, none lost and none reordered, in strictly decreasing
id order (newest first: the reverse of insertion order); submit and pick only
ever append rows, and the sole operation removing rows from a store is the
corresponding clear, which truncates that store to empty. -/
theorem append_only_newest_first (ops : List Op) :
    (list_suggestions (applyOps initDB ops) =
        (applyOps initDB ops).suggestions.rows.reverse ∧
      (list_suggestions (applyOps initDB ops)).Pairwise (fun a b => b.id < a.id)) ∧
    (list_assignments (applyOps initDB ops) =
        (applyOps initDB ops).assignments.rows.reverse ∧
      (list_assignments (applyOps initDB ops)).Pairwise (fun a b => b.id < a.id)) ∧
    (∀ op : Op, op ≠ Op.clearSuggestionsOp →
      ∃ tail, (applyOp (applyOps initDB ops) op).suggestions.rows =
        (applyOps initDB ops).suggestions.rows ++ tail) ∧
    (applyOp (applyOps initDB ops) Op.clearSuggestionsOp).suggestions.rows = [] ∧
    (∀ op : Op, op ≠ Op.clearAssignmentsOp →
      ∃ tail, (applyOp (applyOps initDB ops) op).assignments.rows =
        (applyOps initDB ops).assignments.rows ++ tail) ∧
    (applyOp (applyOps initDB ops) Op.clearAssignmentsOp).assignments.rows = [] := by
  obtain ⟨h1, h2, h3, h4, h5⟩ := DBInv_applyOps initDB DBInv_init ops
  refine ⟨⟨?_, ?_⟩, ⟨?_, ?_⟩, ?_, rfl, ?_, rfl⟩
  · exact list_suggestions_eq_reverse _ h1
  · rw [list_suggestions_eq_reverse _ h1]
    exact List.pairwise_reverse.mpr h1
  · exact list_assignments_eq_reverse _ h3
  · rw [list_assignments_eq_reverse _ h3]
    exact List.pairwise_reverse.mpr h3
  · intro op hne
    cases op with
    | submitOp n u t => exact submit_suggestions_extends _ n u t
    | pickOp p uo ad i t =>
      refine ⟨[], ?_⟩
      rw [List.append_nil]
      show (pick (applyOps initDB ops) p uo ad i t).2.suggestions.rows = _
      rw [pick_suggestions_eq]
    | clearSuggestionsOp => exact absurd rfl hne
    | clearAssignmentsOp => exact ⟨[], by simp [applyOp, clear_assignments]⟩
  · intro op hne
    cases op with
    | submitOp n u t =>
      refine ⟨[], ?_⟩
      rw [List.append_nil]
      show (submit (applyOps initDB ops) n u t).2.assignments.rows = _
      rw [submit_assignments_eq]
    | pickOp p uo ad i t => exact pick_assignments_extends _ p uo ad i t
    | clearSuggestionsOp => exact ⟨[], by simp [applyOp, clear_suggestions]⟩
    | clearAssignmentsOp => exact absurd rfl hne

/-- A concrete short trace used to witness the per-operation clauses. -/
def wOps : List Op :=
  [Op.submitOp "Luna" "Ash" "t1", Op.submitOp "Blaze" "" "t2",
   Op.pickOp "Charmander" true false 0 "t3"]

theorem append_only_newest_first_witness :
    ∃ tail, (applyOp (applyOps initDB wOps) (Op.submitOp "Mew" "a" "T")).suggestions.rows =
      (applyOps initDB wOps).suggestions.rows ++ tail :=
  (append_only_newest_first wOps).2.2.1 (Op.submitOp "Mew" "a" "T") (by decide)

/-- C7: immediately after a clear the store lists nothing, and because the
AUTOINCREMENT counter survives the clear and only ever grows, the id assigned
by the next append differs from the id of every row present at any earlier
point of the trace: no prior id is ever reused. -/
theorem clear_then_fresh_ids (ops : List Op) (k : Nat) (name user ts p c : String) :
    list_suggestions (clear_suggestions (applyOps initDB ops)) = [] ∧
    list_assignments (clear_assignments (applyOps initDB ops)) = [] ∧
    (add_suggestion (clear_suggestions (applyOps initDB ops)) name user ts).suggestions.rows =
      [⟨(applyOps initDB ops).suggestions.nextId, pyStrip name, pyStrip user, ts⟩] ∧
    (∀ r ∈ (applyOps initDB (ops.take k)).suggestions.rows,
      r.id ≠ (applyOps initDB ops).suggestions.nextId) ∧
    (add_assignment (clear_assignments (applyOps initDB ops)) p c ts).assignments.rows =
      [⟨(applyOps initDB ops).assignments.nextId, pyStrip p, pyStrip c, ts⟩] ∧
    (∀ r ∈ (applyOps initDB (ops.take k)).assignments.rows,
      r.id ≠ (applyOps initDB ops).assignments.nextId) := by
  have hinvPre := DBInv_applyOps initDB DBInv_init (ops.take k)
  have hmono := nextId_mono_applyOps (applyOps initDB (ops.take k)) (ops.drop k)
  have htd := applyOps_take_drop initDB ops k
  refine ⟨rfl, rfl, rfl, ?_, rfl, ?_⟩
  · intro r hr
    have hlt : r.id < (applyOps initDB (ops.take k)).suggestions.nextId :=
      hinvPre.2.1 r hr
    have hle : (applyOps initDB (ops.take k)).suggestions.nextId ≤
        (applyOps initDB ops).suggestions.nextId := by
      rw [htd]
      exact hmono.1
    omega
  · intro r hr
    have hlt : r.id < (applyOps initDB (ops.take k)).assignments.nextId :=
      hinvPre.2.2.2.1 r hr
    have hle : (applyOps initDB (ops.take k)).assignments.nextId ≤
        (applyOps initDB ops).assignments.nextId := by
      rw [htd]
      exact hmono.2
    omega

end PkmonNames
